import Mathlib

/-!
# Verification of the `frequency-convertor` phase vocoder (`src/main.py`)

Shallow embedding of the Python function `phase_vocoder` from `src/main.py`.

Modelling choices:
* Audio samples are exact rationals (`ℚ`); the float64 arithmetic of the source is
  idealised as exact arithmetic.  Complex spectral values are pairs of rationals (`Cx`).
* `numpy.fft.fft` / `numpy.fft.ifft` and `numpy.hanning` are external library routines,
  not code of this repository; they enter the embedding as parameters: a bundle
  `FFTImpl` of a forward and an inverse transform, and a window vector `w`.
  Theorems that need facts about them (e.g. that a linear transform maps the zero
  vector to the zero vector) take those facts as hypotheses.
* numpy's 1-D broadcasting of `a * b` is total only when the two lengths agree or one
  of them is `1`; otherwise it raises `ValueError`.  It is embedded as an
  `Option`-valued product `broadcastMul`.
* `numpy.round` rounds half to even; it is embedded as `roundHalfEven`.
* Fancy-index assignment `arr[idxs] = vals` with repeated indices stores, for each
  position, the last value assigned; it is embedded as a left fold of `List.set`.
* The function mutates its `output` argument.  The embedding returns a pair:
  the Python-level result (`Except`: a raised error or the final
  `(output, output_blend)` values) together with the contents of the caller's
  `output` array when the call ends (also on the error paths, where the array may
  already have been overwritten before the exception was raised).
-/

set_option maxRecDepth 100000

/-- A complex number with rational components (idealised `complex128`). -/
structure Cx where
  re : ℚ
  im : ℚ
deriving DecidableEq

/-- The complex zero. -/
def zeroCx : Cx := ⟨0, 0⟩

/-- The external transform library (numpy's `fft` / `ifft`), as parameters:
the source only ever applies `fft` to a real vector. -/
structure FFTImpl where
  fft : List ℚ → List Cx
  ifft : List Cx → List Cx

/-- `fft_size = 2048` (line 42 of the source). -/
def fft_size : ℕ := 2048

/-- Blending factor `alpha = 0.5` (line 49 of the source). -/
def alpha : ℚ := 1 / 2

/-- numpy 1-D broadcasting elementwise product: defined when the lengths agree or one
operand has length 1 (which is then repeated); otherwise a `ValueError` (`none`). -/
def broadcastMul (a b : List ℚ) : Option (List ℚ) :=
  if a.length = b.length then some (List.zipWith (fun x y => x * y) a b)
  else if a.length = 1 then some (b.map (fun y => a.headI * y))
  else if b.length = 1 then some (a.map (fun x => x * b.headI))
  else none

/-- `numpy.round`: round to the nearest integer, ties to the nearest even integer. -/
def roundHalfEven (q : ℚ) : ℤ :=
  if q - ⌊q⌋ < 1 / 2 then ⌊q⌋
  else if 1 / 2 < q - ⌊q⌋ then ⌊q⌋ + 1
  else if ⌊q⌋ % 2 = 0 then ⌊q⌋ else ⌊q⌋ + 1

/-- The remapped bin index of original bin `k`:
`round(k * shift_factor)` (line 66 of the source). -/
def newIdx (shift_factor : ℚ) (k : ℕ) : ℤ := roundHalfEven ((k : ℚ) * shift_factor)

/-- `new_indices` after the bounds filter (lines 66-67 of the source):
the remapped indices of all bins, with values `≥ n` discarded. -/
def new_indices (shift_factor : ℚ) (n : ℕ) : List ℤ :=
  ((List.range n).map (newIdx shift_factor)).filter (fun z => z < (n : ℤ))

/-- Lines 68-69 of the source: start from an all-zero complex array and perform the
fancy-index assignment `shifted_fft[new_indices] = fft_data[:len(new_indices)]`,
assignments applied in order, a later assignment overwriting an earlier one. -/
def shifted_fft (shift_factor : ℚ) (fft_data : List Cx) : List Cx :=
  let idxs := new_indices shift_factor fft_data.length
  (idxs.zip (fft_data.take idxs.length)).foldl
    (fun acc p => acc.set p.1.toNat p.2) (List.replicate fft_data.length zeroCx)

/-- The chunk slice `input_data[start_index:end_index]` (lines 55-56 of the source). -/
def chunkSlice (input_data : List ℚ) (i : ℕ) : List ℚ :=
  let start_index := i * (fft_size / 4)
  let end_index := min (start_index + fft_size) input_data.length
  (input_data.drop start_index).take (end_index - start_index)

/-- Lines 57-60 of the source: the windowed frame (a broadcast product with the
window `w`, which may fail) followed by zero-padding to `fft_size`. -/
def frameOf (w sl : List ℚ) : Option (List ℚ) :=
  (broadcastMul sl w).map (fun frame => frame ++ List.replicate (fft_size - frame.length) 0)

/-- Line 63 of the source: the forward transform of the padded frame of chunk `i`. -/
def spectrumOf (F : FFTImpl) (w input_data : List ℚ) (i : ℕ) : Option (List Cx) :=
  (frameOf w (chunkSlice input_data i)).map F.fft

/-- Line 72 (inner expression): the real part of the inverse transform of the
shifted spectrum of chunk `i`. -/
def timeFrameOf (F : FFTImpl) (w input_data : List ℚ) (shift_factor : ℚ) (i : ℕ) :
    Option (List ℚ) :=
  (spectrumOf F w input_data i).map (fun sp => (F.ifft (shifted_fft shift_factor sp)).map Cx.re)

/-- Line 72 of the source: `output_blend = (1 - alpha) * output_blend + alpha * timeFrame`. -/
def updateBlend (output_blend timeFrame : List ℚ) : List ℚ :=
  List.zipWith (fun b t => (1 - alpha) * b + alpha * t) output_blend timeFrame

/-- Line 75 of the source: `out_start = int(start_index / shift_factor)`.
For a non-negative numerator and positive `shift_factor`, Python's `int()`
truncation is the floor. -/
def out_start (shift_factor : ℚ) (start_index : ℕ) : ℤ := ⌊(start_index : ℚ) / shift_factor⌋

/-- Line 78 of the source:
`output[out_start:min(out_start + len(output_blend), len(output))] += output_blend[:len(output[out_start:])]` —
an elementwise in-place add of the blend buffer into `output` starting at `oStart`,
clipped to the end of `output`. -/
def overlapAdd (output output_blend : List ℚ) (oStart : ℕ) : List ℚ :=
  output.take oStart ++
    List.zipWith (fun x y => x + y) ((output.drop oStart).take output_blend.length)
      output_blend ++
    output.drop (oStart + output_blend.length)

/-- One iteration of the chunk loop (lines 55-78 of the source), acting on the state
`st = (output, output_blend)`; `none` when the broadcast product raised. -/
def chunkStep (F : FFTImpl) (w input_data : List ℚ) (shift_factor : ℚ)
    (st : List ℚ × List ℚ) (i : ℕ) : Option (List ℚ × List ℚ) :=
  match timeFrameOf F w input_data shift_factor i with
  | none => none
  | some tf =>
    let blend := updateBlend st.2 tf
    let oS := out_start shift_factor (i * (fft_size / 4))
    let out := if oS < (st.1.length : ℤ) then overlapAdd st.1 blend oS.toNat else st.1
    some (out, blend)

/-- `num_chunks = int(ceil(len(input_data) / (fft_size // 4)))` (line 52 of the source). -/
def num_chunks (n : ℕ) : ℕ := (Int.ceil ((n : ℚ) / ((fft_size / 4 : ℕ) : ℚ))).toNat

/-- The chunk loop over a list of chunk indices.  On an uncaught numpy error the loop
stops and reports the state reached so far together with the failure flag `false`
(in the source the exception propagates; `output` retains the writes already made). -/
def processLoop (F : FFTImpl) (w input_data : List ℚ) (shift_factor : ℚ) :
    List ℕ → List ℚ × List ℚ → (List ℚ × List ℚ) × Bool
  | [], st => (st, true)
  | i :: is, st =>
    match chunkStep F w input_data shift_factor st i with
    | none => (st, false)
    | some st' => processLoop F w input_data shift_factor is st'

/-- The errors `phase_vocoder` can raise: `ValueError("shift_factor must be a positive
number.")` (line 39), and numpy `ValueError`s from shape-mismatched broadcasting. -/
inductive VocErr where
  | invalidArgument : VocErr
  | broadcast : VocErr
deriving DecidableEq

/-- Line 45 of the source: `output[:] = zeros_like(input_data)` — a broadcast
assignment, total only when the two lengths agree or the input has length 1;
it overwrites `output` with zeros. -/
def zeroFill (output input_data : List ℚ) : Option (List ℚ) :=
  if input_data.length = output.length ∨ input_data.length = 1 then
    some (List.replicate output.length 0)
  else none

/-- Line 48 of the source: `output_blend = zeros(fft_size)` — executed anew on
every call to `phase_vocoder`. -/
def output_blend0 : List ℚ := List.replicate fft_size 0

/-- The whole of `phase_vocoder` (lines 8-78 of the source).  The first component is
the Python-level outcome: a raised error, or normal return with the final values of
`(output, output_blend)`.  The second component is the contents of the caller's
`output` array when the call ends (also on the error paths).  The `status` argument
is only printed by the source and has no effect on the result. -/
def phase_vocoder (F : FFTImpl) (w : List ℚ) (input_data output : List ℚ)
    (status : ℤ) (shift_factor : ℚ) : Except VocErr (List ℚ × List ℚ) × List ℚ :=
  if shift_factor ≤ 0 then (.error .invalidArgument, output)
  else
    match zeroFill output input_data with
    | none => (.error .broadcast, output)
    | some out0 =>
      match processLoop F w input_data shift_factor
          (List.range (num_chunks input_data.length)) (out0, output_blend0) with
      | (st, true) => (.ok st, st.1)
      | (st, false) => (.error .broadcast, st.1)

/-- A run of the engine over an ordered sequence of input blocks: the stream layer in
`main` (lines 92-99) invokes `phase_vocoder` once per block; the function keeps no
state between invocations, so a run is the per-block map of the call. -/
def runEngine (F : FFTImpl) (w : List ℚ) (blocks : List (List ℚ)) (output : List ℚ)
    (status : ℤ) (shift_factor : ℚ) : List (Except VocErr (List ℚ × List ℚ)) :=
  blocks.map (fun b => (phase_vocoder F w b output status shift_factor).1)

/-! ### Definitions following the specification's words (for refinement comparisons) -/

/-- Spec-side framing (`spec.md` §3, §4.1 steps 2-3): multiply the extracted slice
elementwise by the window and zero-pad the result to length `fft_size`. -/
def frameSpecSide (w sl : List ℚ) : List ℚ :=
  List.zipWith (fun x y => x * y) sl w ++ List.replicate (fft_size - sl.length) 0

/-- Spec-side `validCount` (`spec.md` §4.1 step 5): the number of bin indices
`k ∈ [0, n)` whose remapped index `round(k * shift_factor)` is `< n`. -/
def validCount (shift_factor : ℚ) (n : ℕ) : ℕ :=
  ((List.range n).filter (fun k => newIdx shift_factor k < (n : ℤ))).length

/-- Spec-side spectral remapping (`spec.md` §4.1 step 6): an all-zero complex array;
for `j ∈ [0, validCount)` in increasing order, position `newIndex_j = round(j * shift_factor)`
receives `spectrum[j]`. -/
def shiftedSpecSide (shift_factor : ℚ) (spectrum : List Cx) : List Cx :=
  (List.range (validCount shift_factor spectrum.length)).foldl
    (fun acc j => acc.set (newIdx shift_factor j).toNat (spectrum.getD j zeroCx))
    (List.replicate spectrum.length zeroCx)

/-! ### Concrete transform/window instances used by witnesses and counterexamples -/

/-- A transform bundle for witnesses: the identity embedding of reals into `Cx`
and the identity inverse transform. -/
def idF : FFTImpl := ⟨fun v => v.map (fun x => Cx.mk x 0), fun v => v⟩

/-- A transform bundle for counterexamples: constant transforms (the forward one
returns the zero spectrum, the inverse one the all-ones vector). -/
def constF : FFTImpl :=
  ⟨fun _ => List.replicate fft_size zeroCx, fun _ => List.replicate fft_size ⟨1, 0⟩⟩

/-- An all-zero stand-in window of the right length. -/
def wZero : List ℚ := List.replicate fft_size 0

/-- An all-one stand-in window of the right length. -/
def wOne : List ℚ := List.replicate fft_size 1

/-! ### Small evaluation lemmas -/

theorem broadcastMul_none {a b : List ℚ} (h1 : a.length ≠ b.length) (h2 : a.length ≠ 1)
    (h3 : b.length ≠ 1) : broadcastMul a b = none := by
  simp [broadcastMul, h1, h2, h3]

theorem num_chunks_100 : num_chunks 100 = 1 := by
  have h : ⌈(100 : ℚ) / ((512 : ℕ) : ℚ)⌉ = 1 := by
    rw [Int.ceil_eq_iff]
    norm_num
  show (⌈(100 : ℚ) / ((512 : ℕ) : ℚ)⌉).toNat = 1
  rw [h]
  rfl

theorem num_chunks_one : num_chunks 1 = 1 := by
  have h : ⌈(1 : ℚ) / ((512 : ℕ) : ℚ)⌉ = 1 := by
    rw [Int.ceil_eq_iff]
    norm_num
  show (⌈(1 : ℚ) / ((512 : ℕ) : ℚ)⌉).toNat = 1
  rw [h]
  rfl

theorem num_chunks_1024 : num_chunks 1024 = 2 := by
  have h : ⌈(1024 : ℚ) / ((512 : ℕ) : ℚ)⌉ = 2 := by
    rw [Int.ceil_eq_iff]
    norm_num
  show (⌈(1024 : ℚ) / ((512 : ℕ) : ℚ)⌉).toNat = 2
  rw [h]
  rfl

/-! ### C3 -/

/-- **C3.** For every input block, if `shift_factor ≤ 0` then `phase_vocoder` fails with
the invalid-argument error (the source's `ValueError` of line 39) and performs no
mutation: the `output` array is returned exactly as it was, and the only would-be
state, the local smoothing buffer of line 48, has not even been created yet
(the check at line 38 precedes lines 45-48). -/
theorem C3_invalid_argument_no_mutation (F : FFTImpl) (w input_data output : List ℚ)
    (status : ℤ) (shift_factor : ℚ) (hs : shift_factor ≤ 0) :
    phase_vocoder F w input_data output status shift_factor =
      (.error .invalidArgument, output) := by
  simp [phase_vocoder, hs]

/-- Witness for C3 at `shift_factor = 0`. -/
theorem C3_witness :
    ((0 : ℚ) ≤ 0) ∧
      phase_vocoder idF wOne [3] [5] 7 0 = (.error .invalidArgument, [5]) :=
  ⟨le_refl 0, C3_invalid_argument_no_mutation idF wOne [3] [5] 7 0 (le_refl 0)⟩

/-! ### C9 -/

/-- **C9.** Determinism: the embedding of `phase_vocoder` is a pure function of its
arguments — the run of an engine over a sequence of blocks depends only on the
blocks and the shift factor (plus the fixed window and transform), with no hidden
randomness or other state, so two runs over equal inputs produce identical output
sequences. -/
theorem C9_deterministic (F : FFTImpl) (w : List ℚ) (blocks1 blocks2 : List (List ℚ))
    (output : List ℚ) (status : ℤ) (s1 s2 : ℚ) (hb : blocks1 = blocks2) (hs : s1 = s2) :
    runEngine F w blocks1 output status s1 = runEngine F w blocks2 output status s2 := by
  rw [hb, hs]

/-- Witness for C9 at a concrete one-block sequence. -/
theorem C9_witness :
    ([[(1 : ℚ)]] = [[(1 : ℚ)]]) ∧ ((1 : ℚ) = 1) ∧
      runEngine idF wOne [[1]] [] 0 1 = runEngine idF wOne [[1]] [] 0 1 :=
  ⟨rfl, rfl, C9_deterministic idF wOne [[1]] [[1]] [] 0 1 1 rfl rfl⟩

/-! ### C1 -/

/-- **C1** fails on the code: for any window of the source's length `fft_size = 2048`
and any block of length 100 (shorter than `hop = 512`), the very first chunk's
windowing `input_data[start:end] * hanning(fft_size)` multiplies a length-100 slice
by a length-2048 window, which numpy broadcasting rejects: the call raises a
`ValueError` that is not the invalid-argument error, instead of clipping and
yielding a same-length output. -/
theorem C1_short_block_raises (F : FFTImpl) (w input_data output : List ℚ)
    (status : ℤ) (shift_factor : ℚ) (hs : 0 < shift_factor) (hw : w.length = fft_size)
    (hx : input_data.length = 100) (ho : output.length = 100) :
    (phase_vocoder F w input_data output status shift_factor).1 = .error .broadcast := by
  have hslice : chunkSlice input_data 0 = input_data := by
    simp [chunkSlice, hx, fft_size]
  have hbm : broadcastMul (chunkSlice input_data 0) w = none := by
    rw [hslice]
    exact broadcastMul_none (by rw [hx, hw]; norm_num [fft_size]) (by rw [hx]; norm_num)
      (by rw [hw]; norm_num [fft_size])
  have hstep : ∀ st, chunkStep F w input_data shift_factor st 0 = none := by
    intro st
    simp [chunkStep, timeFrameOf, spectrumOf, frameOf, hbm]
  rw [phase_vocoder, if_neg (not_le.mpr hs)]
  have hzf : zeroFill output input_data = some (List.replicate output.length 0) := by
    simp [zeroFill, hx, ho]
  rw [hzf, hx, num_chunks_100, show List.range 1 = [0] from rfl]
  simp [processLoop, hstep]

/-- Witness for C1's refutation at a concrete length-100 block. -/
theorem C1_witness :
    (0 < (1 : ℚ)) ∧ wOne.length = fft_size ∧
      (List.replicate 100 (0 : ℚ)).length = 100 ∧
      (phase_vocoder idF wOne (List.replicate 100 0) (List.replicate 100 0) 0 1).1 =
        .error .broadcast :=
  ⟨one_pos, by simp [wOne], by simp,
    C1_short_block_raises idF wOne (List.replicate 100 0) (List.replicate 100 0) 0 1
      one_pos (by simp [wOne]) (by simp) (by simp)⟩

/-! ### C2 -/

theorem chunkSlice_single : chunkSlice [(1 : ℚ)] 0 = [(1 : ℚ)] := by
  simp [chunkSlice, fft_size]

theorem broadcastMul_single : broadcastMul [(1 : ℚ)] wOne = some (List.replicate fft_size 1) := by
  simp [broadcastMul, wOne, fft_size, List.headI]

theorem frameOf_single : frameOf wOne [(1 : ℚ)] = some (List.replicate fft_size 1) := by
  rw [frameOf, broadcastMul_single]
  simp

theorem tf_eval : timeFrameOf constF wOne [(1 : ℚ)] 1 0 = some (List.replicate fft_size 1) := by
  rw [timeFrameOf, spectrumOf, chunkSlice_single, frameOf_single]
  simp [constF, zeroCx]

theorem blend_eval :
    updateBlend output_blend0 (List.replicate fft_size 1) = List.replicate fft_size (1 / 2) := by
  rw [updateBlend, output_blend0, List.zipWith_replicate]
  norm_num [alpha]

theorem chunkStep_single :
    chunkStep constF wOne [(1 : ℚ)] 1 ([], output_blend0) 0 =
      some ([], List.replicate fft_size (1 / 2)) := by
  rw [chunkStep, tf_eval]
  simp [blend_eval, out_start]

theorem getD_replicate_zero {n : ℕ} (hn : 0 < n) (a d : ℚ) :
    (List.replicate n a).getD 0 d = a := by
  simp [List.getD_eq_getElem?_getD, List.getElem?_replicate, hn]

/-- **C2** fails on the code: the smoothing buffer is *not* persistent engine state.
`output_blend` is a local variable re-created as `zeros(fft_size)` (line 48) on every
call to `phase_vocoder`, so every call starts from `output_blend0`; here is a
successful call whose buffer ends as the all-`1/2` vector, a value different from
the one the next call starts from. -/
theorem C2_counterexample :
    (phase_vocoder constF wOne [(1 : ℚ)] [] 0 1).1 =
        .ok ([], List.replicate fft_size (1 / 2)) ∧
      List.replicate fft_size ((1 : ℚ) / 2) ≠ output_blend0 := by
  constructor
  · rw [phase_vocoder, if_neg (by norm_num : ¬ ((1 : ℚ) ≤ 0))]
    have hzf : zeroFill [] [(1 : ℚ)] = some [] := by simp [zeroFill]
    rw [hzf, show ([(1 : ℚ)]).length = 1 from rfl, num_chunks_one,
      show List.range 1 = [0] from rfl]
    simp [processLoop, chunkStep_single]
  · intro h
    have h0 := congrArg (fun l => l.getD 0 0) h
    rw [output_blend0] at h0
    simp only [getD_replicate_zero (by norm_num [fft_size] : 0 < fft_size)] at h0
    norm_num at h0

/-- **C2 amended.** No state persists between calls: each call re-creates the
smoothing buffer as zeros, and the result of `phase_vocoder` on a block is
independent of every block processed before it — the engine's last response to a
block `b` is the same no matter which (and how many) blocks preceded it. -/
theorem C2_amended_no_persistence (F : FFTImpl) (w : List ℚ)
    (prev1 prev2 : List (List ℚ)) (b output : List ℚ) (status : ℤ) (s : ℚ) :
    (runEngine F w (prev1 ++ [b]) output status s).getLast? =
      (runEngine F w (prev2 ++ [b]) output status s).getLast? := by
  simp [runEngine]

/-! ### C6 -/

/-- **C6** fails on the code: for the boundary chunk of a length-100 block, the
claimed behaviour — elementwise product with the Hann window, then zero-padding to
`fft_size` (the spec-side `frameSpecSide`) — is not what the code does: the
broadcast product of the length-100 slice with the length-2048 window raises a
`ValueError` (`none`), while the spec-side framing would have produced a full
length-2048 frame. -/
theorem C6_window_mismatch :
    frameOf wOne (chunkSlice (List.replicate 100 (0 : ℚ)) 0) = none ∧
      frameSpecSide wOne (chunkSlice (List.replicate 100 (0 : ℚ)) 0) =
        List.replicate fft_size 0 := by
  have hslice : chunkSlice (List.replicate 100 (0 : ℚ)) 0 = List.replicate 100 (0 : ℚ) := by
    simp [chunkSlice, fft_size]
  rw [hslice]
  constructor
  · rw [frameOf, broadcastMul_none (by simp [wOne, fft_size]) (by simp) (by simp [wOne, fft_size])]
    rfl
  · rw [frameSpecSide, wOne, List.zipWith_replicate]
    norm_num [fft_size]

/-! ### C4 -/

theorem zipWith_mul_replicate_zero (w : List ℚ) (n : ℕ) :
    List.zipWith (fun x y => x * y) (List.replicate n 0) w =
      List.replicate (min n w.length) 0 := by
  induction w generalizing n with
  | nil => simp
  | cons a t ih =>
    cases n with
    | zero => simp
    | succ m =>
      rw [List.replicate_succ, List.zipWith_cons_cons, ih, zero_mul]
      simp [List.replicate_succ, Nat.succ_min_succ]

theorem broadcastMul_replicate_zero {w f : List ℚ} {l : ℕ} (hw : w.length = fft_size)
    (h : broadcastMul (List.replicate l 0) w = some f) : f = List.replicate fft_size 0 := by
  rw [broadcastMul] at h
  split_ifs at h with h1 h2 h3
  · rw [Option.some_inj] at h
    rw [List.length_replicate, hw] at h1
    rw [← h, zipWith_mul_replicate_zero, h1, hw, min_self]
  · rw [Option.some_inj] at h
    rw [List.length_replicate] at h2
    subst h2
    rw [← h]
    simp [List.headI, hw]
  · rw [h3] at hw
    norm_num [fft_size] at hw

theorem frameOf_replicate_zero {w : List ℚ} (hw : w.length = fft_size) {l : ℕ} {p : List ℚ}
    (h : frameOf w (List.replicate l 0) = some p) : p = List.replicate fft_size 0 := by
  rw [frameOf] at h
  rcases Option.map_eq_some'.mp h with ⟨f, hf, hp⟩
  have hf' := broadcastMul_replicate_zero hw hf
  subst hf'
  rw [← hp]
  simp

theorem foldl_set_zeroCx {n : ℕ} :
    ∀ {ps : List (ℤ × Cx)}, (∀ p ∈ ps, p.2 = zeroCx) →
      ps.foldl (fun acc p => acc.set p.1.toNat p.2) (List.replicate n zeroCx) =
        List.replicate n zeroCx
  | [], _ => rfl
  | q :: ps, h => by
    rw [List.foldl_cons, h q (List.mem_cons_self q ps), List.set_replicate_self]
    exact foldl_set_zeroCx fun p hp => h p (List.mem_cons_of_mem q hp)

theorem shifted_fft_zero (s : ℚ) (n : ℕ) :
    shifted_fft s (List.replicate n zeroCx) = List.replicate n zeroCx := by
  rw [shifted_fft]
  simp only [List.length_replicate]
  refine foldl_set_zeroCx ?_
  intro p hp
  have h2 := (List.of_mem_zip hp).2
  rw [List.take_replicate] at h2
  exact List.eq_of_mem_replicate h2

theorem updateBlend_zero :
    updateBlend (List.replicate fft_size 0) (List.replicate fft_size 0) =
      List.replicate fft_size 0 := by
  rw [updateBlend, List.zipWith_replicate]
  norm_num

theorem overlapAdd_zero (n m j : ℕ) :
    overlapAdd (List.replicate n 0) (List.replicate m 0) j = List.replicate n 0 := by
  rw [overlapAdd]
  simp only [List.take_replicate, List.drop_replicate, List.length_replicate,
    List.zipWith_replicate]
  norm_num
  omega

theorem chunkSlice_replicate (n i : ℕ) :
    chunkSlice (List.replicate n (0 : ℚ)) i =
      List.replicate (min (min (i * (fft_size / 4) + fft_size) n - i * (fft_size / 4))
        (n - i * (fft_size / 4))) 0 := by
  simp [chunkSlice, List.drop_replicate, List.take_replicate]

theorem chunkStep_zero {F : FFTImpl} {w : List ℚ} {n i : ℕ} {s : ℚ}
    (hw : w.length = fft_size)
    (hf : F.fft (List.replicate fft_size 0) = List.replicate fft_size zeroCx)
    (hi : F.ifft (List.replicate fft_size zeroCx) = List.replicate fft_size zeroCx)
    {st' : List ℚ × List ℚ}
    (h : chunkStep F w (List.replicate n 0) s
        (List.replicate n 0, List.replicate fft_size 0) i = some st') :
    st' = (List.replicate n 0, List.replicate fft_size 0) := by
  rw [chunkStep] at h
  rcases hfr : frameOf w (chunkSlice (List.replicate n (0 : ℚ)) i) with _ | p
  · rw [timeFrameOf, spectrumOf, hfr] at h
    simp at h
  · have htf : timeFrameOf F w (List.replicate n 0) s i =
        some (List.replicate fft_size 0) := by
      rw [timeFrameOf, spectrumOf, hfr]
      have hp : p = List.replicate fft_size 0 := by
        rw [chunkSlice_replicate] at hfr
        exact frameOf_replicate_zero hw hfr
      rw [Option.map_some', Option.map_some', hp, hf, shifted_fft_zero, hi]
      simp [zeroCx]
    rw [htf] at h
    rw [Option.some_inj] at h
    rw [← h, updateBlend_zero]
    by_cases hg : out_start s (i * (fft_size / 4)) < ((List.replicate (n : ℕ) (0:ℚ)).length : ℤ)
    · simp only [hg, if_pos, overlapAdd_zero]
    · simp only [hg, if_neg, ite_false]

theorem processLoop_zero (F : FFTImpl) (w : List ℚ) (n : ℕ) (s : ℚ)
    (hw : w.length = fft_size)
    (hf : F.fft (List.replicate fft_size 0) = List.replicate fft_size zeroCx)
    (hi : F.ifft (List.replicate fft_size zeroCx) = List.replicate fft_size zeroCx) :
    ∀ idxs : List ℕ,
      (processLoop F w (List.replicate n 0) s idxs
          (List.replicate n 0, List.replicate fft_size 0)).1 =
        (List.replicate n 0, List.replicate fft_size 0)
  | [] => rfl
  | i :: is => by
    rw [processLoop]
    rcases hcs : chunkStep F w (List.replicate n 0) s
        (List.replicate n 0, List.replicate fft_size 0) i with _ | st'
    · rfl
    · rw [chunkStep_zero hw hf hi hcs]
      exact processLoop_zero F w n s hw hf hi is

/-- **C4** fails on the code as stated: an all-zero block of the stream's own block
size 1024 does not yield an all-zero output block — the very first chunk raises the
broadcast `ValueError` (slice length 1024 against window length 2048), so the call
never returns an output at all. -/
theorem block_1024_raises (F : FFTImpl) (w input_data output : List ℚ)
    (status : ℤ) (shift_factor : ℚ) (hs : 0 < shift_factor) (hw : w.length = fft_size)
    (hx : input_data.length = 1024) (ho : output.length = 1024) :
    (phase_vocoder F w input_data output status shift_factor).1 = .error .broadcast := by
  have hslice : chunkSlice input_data 0 = input_data := by
    simp [chunkSlice, hx, fft_size]
  have hbm : broadcastMul (chunkSlice input_data 0) w = none := by
    rw [hslice]
    exact broadcastMul_none (by rw [hx, hw]; norm_num [fft_size]) (by rw [hx]; norm_num)
      (by rw [hw]; norm_num [fft_size])
  have hstep : ∀ st, chunkStep F w input_data shift_factor st 0 = none := by
    intro st
    simp [chunkStep, timeFrameOf, spectrumOf, frameOf, hbm]
  rw [phase_vocoder, if_neg (not_le.mpr hs)]
  have hzf : zeroFill output input_data = some (List.replicate output.length 0) := by
    simp [zeroFill, hx, ho]
  rw [hzf, hx, num_chunks_1024, show List.range 2 = [0, 1] from rfl]
  simp [processLoop, hstep]

theorem C4_counterexample :
    (phase_vocoder idF wOne (List.replicate 1024 (0 : ℚ)) (List.replicate 1024 (0 : ℚ))
        0 1).1 = .error .broadcast :=
  block_1024_raises idF wOne (List.replicate 1024 0) (List.replicate 1024 0) 0 1
    one_pos (by simp [wOne]) (by simp) (by simp)

/-- **C4 amended.** Silence conservation, as far as the code's broadcast defect
allows: for every `shift_factor > 0` and any transform that maps the zero vector to
the zero vector (as numpy's `fft`/`ifft` do), an all-zero input block never makes
the output nonzero — the caller's `output` array is all-zero when the call ends
whether or not the call raises — and when `phase_vocoder` does return normally it
returns the all-zero output block together with a smoothing buffer that is still
all-zero (it was re-created as zero at the start of the call). -/
theorem C4_silence_amended (F : FFTImpl) (w : List ℚ) (n : ℕ) (status : ℤ) (s : ℚ)
    (hs : 0 < s) (hw : w.length = fft_size)
    (hf : F.fft (List.replicate fft_size 0) = List.replicate fft_size zeroCx)
    (hi : F.ifft (List.replicate fft_size zeroCx) = List.replicate fft_size zeroCx) :
    (phase_vocoder F w (List.replicate n 0) (List.replicate n 0) status s).2 =
        List.replicate n 0 ∧
      ∀ r, (phase_vocoder F w (List.replicate n 0) (List.replicate n 0) status s).1 =
          .ok r → r = (List.replicate n 0, List.replicate fft_size 0) := by
  rw [phase_vocoder, if_neg (not_le.mpr hs)]
  have hzf : zeroFill (List.replicate n (0 : ℚ)) (List.replicate n (0 : ℚ)) =
      some (List.replicate n 0) := by
    simp [zeroFill]
  rw [hzf, show output_blend0 = List.replicate fft_size 0 from rfl]
  dsimp only
  have hpl := processLoop_zero F w n s hw hf hi
    (List.range (num_chunks (List.replicate n (0 : ℚ)).length))
  rcases hres : processLoop F w (List.replicate n 0) s
      (List.range (num_chunks (List.replicate n (0 : ℚ)).length))
      (List.replicate n 0, List.replicate fft_size 0) with ⟨st, b⟩
  have hst : st = (List.replicate n 0, List.replicate fft_size 0) := by
    rw [hres] at hpl
    exact hpl
  subst hst
  cases b
  · exact ⟨rfl, fun r hr => by cases hr⟩
  · exact ⟨rfl, fun r hr => by cases hr; rfl⟩

/-- Witness for C4's amended theorem at `n = 0`, `s = 1`, the identity transforms and
the all-zero stand-in window. -/
theorem C4_witness :
    (0 < (1 : ℚ)) ∧ wZero.length = fft_size ∧
      idF.fft (List.replicate fft_size 0) = List.replicate fft_size zeroCx ∧
      idF.ifft (List.replicate fft_size zeroCx) = List.replicate fft_size zeroCx ∧
      ((phase_vocoder idF wZero (List.replicate 0 0) (List.replicate 0 0) 0 1).2 =
          List.replicate 0 0 ∧
        ∀ r, (phase_vocoder idF wZero (List.replicate 0 0) (List.replicate 0 0) 0 1).1 =
            .ok r → r = (List.replicate 0 0, List.replicate fft_size 0)) :=
  ⟨one_pos, by simp [wZero], by simp [idF, zeroCx], rfl,
    C4_silence_amended idF wZero 0 0 1 one_pos (by simp [wZero]) (by simp [idF, zeroCx]) rfl⟩

/-! ### C7 -/

/-- **C7.** Smoothing update, per chunk: whenever the chunk's pipeline reaches line 72
(`tf` is the chunk's time frame), the time frame is the real part of the inverse
transform of the shifted spectrum, and the new smoothing buffer produced by the
chunk is elementwise `(1 - alpha) * old + alpha * timeFrame` with the fixed
constant `alpha = 1/2`. -/
theorem C7_smoothing_update (F : FFTImpl) (w input_data : List ℚ) (s : ℚ)
    (st : List ℚ × List ℚ) (i : ℕ) (tf : List ℚ)
    (htf : timeFrameOf F w input_data s i = some tf) :
    alpha = 1 / 2 ∧
      (∀ sp, spectrumOf F w input_data i = some sp →
        tf = (F.ifft (shifted_fft s sp)).map Cx.re) ∧
      chunkStep F w input_data s st i =
        some ((if out_start s (i * (fft_size / 4)) < (st.1.length : ℤ) then
                overlapAdd st.1 (updateBlend st.2 tf) (out_start s (i * (fft_size / 4))).toNat
              else st.1), updateBlend st.2 tf) ∧
      ∀ k, k < (updateBlend st.2 tf).length →
        (updateBlend st.2 tf).getD k 0 =
          (1 - alpha) * st.2.getD k 0 + alpha * tf.getD k 0 := by
  refine ⟨rfl, ?_, ?_, ?_⟩
  · intro sp hsp
    rw [timeFrameOf, hsp, Option.map_some', Option.some_inj] at htf
    exact htf.symm
  · rw [chunkStep, htf]
  · intro k hk
    have hk2 : k < st.2.length ∧ k < tf.length := by
      rw [updateBlend, List.length_zipWith, lt_min_iff] at hk
      exact hk
    rw [updateBlend] at hk ⊢
    rw [List.getD_eq_getElem _ _ hk, List.getElem_zipWith,
      List.getD_eq_getElem _ _ hk2.1, List.getD_eq_getElem _ _ hk2.2]

/-- A concrete loop state used by the C7/C8 witnesses. -/
def stW : List ℚ × List ℚ := ([], output_blend0)

/-- Witness for C7 at a concrete chunk (constant transforms, all-one window,
one-sample block). -/
theorem C7_witness :
    timeFrameOf constF wOne [(1 : ℚ)] 1 0 = some (List.replicate fft_size 1) ∧
      (alpha = 1 / 2 ∧
        (∀ sp, spectrumOf constF wOne [(1 : ℚ)] 0 = some sp →
          List.replicate fft_size (1 : ℚ) = (constF.ifft (shifted_fft 1 sp)).map Cx.re) ∧
        chunkStep constF wOne [(1 : ℚ)] 1 stW 0 =
          some ((if out_start 1 (0 * (fft_size / 4)) < (stW.1.length : ℤ) then
                  overlapAdd stW.1 (updateBlend stW.2 (List.replicate fft_size 1))
                    (out_start 1 (0 * (fft_size / 4))).toNat
                else stW.1),
            updateBlend stW.2 (List.replicate fft_size 1)) ∧
        ∀ k, k < (updateBlend stW.2 (List.replicate fft_size 1)).length →
          (updateBlend stW.2 (List.replicate fft_size 1)).getD k 0 =
            (1 - alpha) * stW.2.getD k 0 +
              alpha * (List.replicate fft_size (1 : ℚ)).getD k 0) :=
  ⟨tf_eval, C7_smoothing_update constF wOne [1] 1 stW 0 _ tf_eval⟩

/-! ### C8 -/

theorem overlapAdd_length (out blend : List ℚ) (j : ℕ) :
    (overlapAdd out blend j).length = out.length := by
  simp [overlapAdd]
  omega

theorem overlapAdd_getD (out blend : List ℚ) (j m : ℕ) (hm : m < out.length) :
    (overlapAdd out blend j).getD m 0 =
      out.getD m 0 + (if j ≤ m ∧ m < j + blend.length then blend.getD (m - j) 0 else 0) := by
  rw [List.getD_eq_getElem?_getD, overlapAdd, List.getElem?_append, List.getElem?_append]
  simp only [List.length_take, List.length_zipWith, List.length_drop, List.length_append]
  by_cases h1 : m < j
  · rw [if_pos (by omega), if_pos (by omega), List.getElem?_take, if_pos h1,
      List.getElem?_eq_getElem hm, if_neg (by omega)]
    rw [List.getD_eq_getElem _ _ hm]
    simp
  · by_cases h2 : m < j + min blend.length (out.length - j)
    · have hja : min j out.length = j := by omega
      rw [if_pos (by omega), if_neg (by omega), hja, List.getElem?_zipWith,
        List.getElem?_take, if_pos (by omega : m - j < blend.length), List.getElem?_drop,
        show j + (m - j) = m from by omega, List.getElem?_eq_getElem hm,
        List.getElem?_eq_getElem (show m - j < blend.length from by omega)]
      rw [if_pos (show j ≤ m ∧ m < j + blend.length from ⟨by omega, by omega⟩),
        List.getD_eq_getElem _ _ hm,
        List.getD_eq_getElem _ _ (show m - j < blend.length from by omega)]
      simp
    · rw [if_neg (by omega), List.getElem?_drop,
        show j + blend.length +
            (m - (min j out.length + min (min blend.length (out.length - j)) blend.length)) = m
          from by omega,
        List.getElem?_eq_getElem hm, if_neg (by omega), List.getD_eq_getElem _ _ hm]
      simp

/-- **C8.** Overlap-add placement, per chunk: `out_start` is the floor of
`start / shift_factor`; if (and only if) it lies within the output's bounds the
smoothing buffer is added elementwise into the output starting there, the write
clipped so it never passes the end of the output (the output keeps its length, and
every position receives exactly `old + blend[m - out_start]` inside the written
window and is untouched outside it); a chunk whose `out_start` is out of bounds
leaves the output unchanged. -/
theorem C8_overlap_add_placement (F : FFTImpl) (w input_data : List ℚ) (s : ℚ)
    (st : List ℚ × List ℚ) (i : ℕ) (tf : List ℚ) (hs : 0 < s)
    (htf : timeFrameOf F w input_data s i = some tf) :
    out_start s (i * (fft_size / 4)) = ⌊((i * (fft_size / 4) : ℕ) : ℚ) / s⌋ ∧
      (out_start s (i * (fft_size / 4)) < (st.1.length : ℤ) →
        chunkStep F w input_data s st i =
          some (overlapAdd st.1 (updateBlend st.2 tf)
              (out_start s (i * (fft_size / 4))).toNat,
            updateBlend st.2 tf) ∧
        (overlapAdd st.1 (updateBlend st.2 tf)
            (out_start s (i * (fft_size / 4))).toNat).length = st.1.length ∧
        ∀ m, m < st.1.length →
          (overlapAdd st.1 (updateBlend st.2 tf)
              (out_start s (i * (fft_size / 4))).toNat).getD m 0 =
            st.1.getD m 0 +
              (if (out_start s (i * (fft_size / 4))).toNat ≤ m ∧
                  m < (out_start s (i * (fft_size / 4))).toNat + (updateBlend st.2 tf).length
                then (updateBlend st.2 tf).getD (m - (out_start s (i * (fft_size / 4))).toNat) 0
                else 0)) ∧
      (¬ out_start s (i * (fft_size / 4)) < (st.1.length : ℤ) →
        chunkStep F w input_data s st i = some (st.1, updateBlend st.2 tf)) := by
  refine ⟨rfl, ?_, ?_⟩
  · intro hg
    refine ⟨?_, overlapAdd_length _ _ _, fun m hm => overlapAdd_getD _ _ _ _ hm⟩
    rw [chunkStep, htf]
    dsimp only
    rw [if_pos hg]
  · intro hg
    rw [chunkStep, htf]
    dsimp only
    rw [if_neg hg]

/-- Witness for C8 at a concrete chunk. -/
theorem C8_witness :
    (0 < (1 : ℚ)) ∧
      timeFrameOf constF wOne [(1 : ℚ)] 1 0 = some (List.replicate fft_size 1) ∧
      (out_start 1 (0 * (fft_size / 4)) = ⌊((0 * (fft_size / 4) : ℕ) : ℚ) / 1⌋ ∧
        (out_start 1 (0 * (fft_size / 4)) < (stW.1.length : ℤ) →
          chunkStep constF wOne [(1 : ℚ)] 1 stW 0 =
            some (overlapAdd stW.1 (updateBlend stW.2 (List.replicate fft_size 1))
                (out_start 1 (0 * (fft_size / 4))).toNat,
              updateBlend stW.2 (List.replicate fft_size 1)) ∧
          (overlapAdd stW.1 (updateBlend stW.2 (List.replicate fft_size 1))
              (out_start 1 (0 * (fft_size / 4))).toNat).length = stW.1.length ∧
          ∀ m, m < stW.1.length →
            (overlapAdd stW.1 (updateBlend stW.2 (List.replicate fft_size 1))
                (out_start 1 (0 * (fft_size / 4))).toNat).getD m 0 =
              stW.1.getD m 0 +
                (if (out_start 1 (0 * (fft_size / 4))).toNat ≤ m ∧
                    m < (out_start 1 (0 * (fft_size / 4))).toNat +
                      (updateBlend stW.2 (List.replicate fft_size 1)).length
                  then (updateBlend stW.2 (List.replicate fft_size 1)).getD
                    (m - (out_start 1 (0 * (fft_size / 4))).toNat) 0
                  else 0)) ∧
        (¬ out_start 1 (0 * (fft_size / 4)) < (stW.1.length : ℤ) →
          chunkStep constF wOne [(1 : ℚ)] 1 stW 0 =
            some (stW.1, updateBlend stW.2 (List.replicate fft_size 1)))) :=
  ⟨one_pos, tf_eval,
    C8_overlap_add_placement constF wOne [1] 1 stW 0 _ one_pos tf_eval⟩

/-! ### C5 -/

theorem roundHalfEven_cases (q : ℚ) :
    roundHalfEven q = ⌊q⌋ ∨ roundHalfEven q = ⌊q⌋ + 1 := by
  rw [roundHalfEven]
  split_ifs <;> simp

theorem roundHalfEven_mono {q r : ℚ} (h : q ≤ r) :
    roundHalfEven q ≤ roundHalfEven r := by
  rcases lt_or_le ⌊q⌋ ⌊r⌋ with hf | hf
  · rcases roundHalfEven_cases q with h1 | h1 <;> rcases roundHalfEven_cases r with h2 | h2 <;>
      omega
  · have hf' : ⌊r⌋ = ⌊q⌋ := le_antisymm hf (Int.floor_le_floor h)
    rw [roundHalfEven, roundHalfEven, hf']
    split_ifs <;> first | omega | (exfalso; linarith)

theorem roundHalfEven_nonneg {q : ℚ} (h : 0 ≤ q) : 0 ≤ roundHalfEven q := by
  have hc := roundHalfEven_cases q
  have hfl : (0 : ℤ) ≤ ⌊q⌋ := Int.floor_nonneg.mpr h
  omega

theorem newIdx_mono (s : ℚ) (hs : 0 ≤ s) {j k : ℕ} (hjk : j ≤ k) :
    newIdx s j ≤ newIdx s k := by
  apply roundHalfEven_mono
  apply mul_le_mul_of_nonneg_right _ hs
  exact_mod_cast hjk

theorem newIdx_nonneg (s : ℚ) (hs : 0 ≤ s) (k : ℕ) : 0 ≤ newIdx s k := by
  apply roundHalfEven_nonneg
  positivity

theorem filter_range_downward (q : ℕ → Bool) (n : ℕ)
    (hq : ∀ j k : ℕ, j ≤ k → k < n → q k = true → q j = true) :
    (List.range n).filter q = List.range (((List.range n).filter q).length) := by
  induction n with
  | zero => rfl
  | succ m ih =>
    have hq' : ∀ j k : ℕ, j ≤ k → k < m → q k = true → q j = true :=
      fun j k hjk hk hqk => hq j k hjk (by omega) hqk
    rw [List.range_succ, List.filter_append]
    by_cases hm : q m
    · have hall : (List.range m).filter q = List.range m :=
        List.filter_eq_self.mpr fun a ha =>
          hq a m (le_of_lt (List.mem_range.mp ha)) (by omega) hm
      rw [hall]
      simp [hm, List.range_succ]
    · have hnil : (List.range m).filter q ++ List.filter q [m] = (List.range m).filter q := by
        simp [hm]
      rw [hnil]
      exact ih hq'

theorem new_indices_eq_map_range (s : ℚ) (hs : 0 ≤ s) (n : ℕ) :
    new_indices s n = (List.range (validCount s n)).map (newIdx s) := by
  rw [new_indices, List.filter_map]
  have hdc : ∀ j k : ℕ, j ≤ k → k < n →
      ((fun z => decide (z < (n : ℤ))) ∘ newIdx s) k = true →
      ((fun z => decide (z < (n : ℤ))) ∘ newIdx s) j = true := by
    intro j k hjk hk hqk
    simp only [Function.comp_apply, decide_eq_true_eq] at hqk ⊢
    exact lt_of_le_of_lt (newIdx_mono s hs hjk) hqk
  rw [filter_range_downward _ n hdc]
  rfl

theorem validCount_le (s : ℚ) (n : ℕ) : validCount s n ≤ n := by
  rw [validCount]
  calc ((List.range n).filter fun k => newIdx s k < (n : ℤ)).length
      ≤ (List.range n).length := List.length_filter_le _ _
    _ = n := List.length_range n

theorem newIdx_lt_of_lt_validCount (s : ℚ) (hs : 0 ≤ s) {n j : ℕ}
    (hj : j < validCount s n) : newIdx s j < (n : ℤ) := by
  have hmem : newIdx s j ∈ new_indices s n := by
    rw [new_indices_eq_map_range s hs]
    exact List.mem_map_of_mem _ (List.mem_range.mpr hj)
  rw [new_indices] at hmem
  have hfil := List.of_mem_filter hmem
  simpa using hfil

theorem zip_map_range_take (f : ℕ → ℤ) (v : List Cx) :
    ∀ m : ℕ, m ≤ v.length →
      ((List.range m).map f).zip (v.take m) =
        (List.range m).map (fun j => (f j, v.getD j zeroCx))
  | 0, _ => rfl
  | (m + 1), h => by
    rw [List.range_succ, List.map_append, List.map_append, List.take_succ,
      List.zip_append (by simp [List.length_take]; omega),
      zip_map_range_take f v m (by omega)]
    congr 1
    have hm : v[m]? = some (v.getD m zeroCx) := by
      rw [List.getElem?_eq_getElem (by omega), List.getD_eq_getElem _ _ (by omega)]
    rw [hm]
    rfl

theorem shifted_fft_eq_specSide (s : ℚ) (hs : 0 ≤ s) (v : List Cx) :
    shifted_fft s v = shiftedSpecSide s v := by
  simp only [shifted_fft, shiftedSpecSide]
  rw [new_indices_eq_map_range s hs, List.length_map, List.length_range,
    zip_map_range_take (newIdx s) v (validCount s v.length) (validCount_le s v.length),
    List.foldl_map]

/-- **C5.** Spectral remapping, per chunk, matches the specification's description:
the code's filter-and-fancy-assignment (`shifted_fft`) coincides with the spec-side
procedure (`shiftedSpecSide`): an all-zero spectrum of length `FFT_SIZE`; for
`j ∈ [0, validCount)` in increasing original-index order, position
`round(j * shift_factor)` receives `spectrum[j]`.  (Because `round(k * s)` is
monotone in `k` for `s > 0`, the retained bins are exactly the first `validCount`
original bins, so the code's positional zip agrees with the spec's indexing.) -/
theorem C5_remap_matches_spec (s : ℚ) (v : List Cx) (hs : 0 < s)
    (hv : v.length = fft_size) : shifted_fft s v = shiftedSpecSide s v :=
  shifted_fft_eq_specSide s (le_of_lt hs) v

/-- Witness for C5 at `shift_factor = 1` on the zero spectrum. -/
theorem C5_witness :
    (0 < (1 : ℚ)) ∧ (List.replicate fft_size zeroCx).length = fft_size ∧
      shifted_fft 1 (List.replicate fft_size zeroCx) =
        shiftedSpecSide 1 (List.replicate fft_size zeroCx) :=
  ⟨one_pos, by simp, C5_remap_matches_spec 1 (List.replicate fft_size zeroCx) one_pos (by simp)⟩

/-! ### C10 -/

theorem foldl_set_getD :
    ∀ (ps : List (ℕ × Cx)) (init : List Cx) (t : ℕ), t < init.length →
      (ps.foldl (fun acc p => acc.set p.1 p.2) init).getD t zeroCx =
        (ps.filter (fun p => p.1 == t)).foldl (fun _ p => p.2) (init.getD t zeroCx)
  | [], _, _, _ => rfl
  | q :: ps, init, t, ht => by
    rw [List.foldl_cons,
      foldl_set_getD ps (init.set q.1 q.2) t (by rw [List.length_set]; exact ht)]
    by_cases hq : q.1 = t
    · have hset : (init.set q.1 q.2).getD t zeroCx = q.2 := by
        subst hq
        rw [List.getD_eq_getElem?_getD, List.getElem?_set_self ht]
        rfl
      rw [hset, List.filter_cons, if_pos (by simp [hq]), List.foldl_cons]
    · have hset : (init.set q.1 q.2).getD t zeroCx = init.getD t zeroCx := by
        rw [List.getD_eq_getElem?_getD, List.getD_eq_getElem?_getD,
          List.getElem?_set_ne hq]
      rw [hset, List.filter_cons, if_neg (by simp [hq])]

theorem foldl_replace_filter_range (val : ℕ → Cx) (q : ℕ → Bool) (m j2 : ℕ) (d : Cx)
    (hj2 : j2 < m) (hq : q j2 = true) (hafter : ∀ j, j2 < j → j < m → q j = false) :
    ((List.range m).filter q).foldl (fun _ j => val j) d = val j2 := by
  have hdecomp : List.range m = List.range (j2 + 1) ++ List.range' (j2 + 1) (m - (j2 + 1)) := by
    rw [List.range_eq_range', List.range_eq_range',
      show List.range' (j2 + 1) (m - (j2 + 1)) = List.range' (0 + 1 * (j2 + 1)) (m - (j2 + 1))
        from by norm_num,
      List.range'_append]
    congr 1
    omega
  have hnil : (List.range' (j2 + 1) (m - (j2 + 1))).filter q = [] := by
    rw [List.filter_eq_nil_iff]
    intro a ha
    rcases List.mem_range'.mp ha with ⟨i, hi, rfl⟩
    rw [hafter (j2 + 1 + 1 * i) (by omega) (by omega)]
    simp
  rw [hdecomp, List.filter_append, hnil, List.append_nil, List.range_succ,
    List.filter_append, List.filter_cons, if_pos hq]
  simp [List.foldl_append]

theorem roundHalfEven_natCast (k : ℕ) : roundHalfEven (k : ℚ) = k := by
  norm_num [roundHalfEven, Int.floor_natCast]

/-- **C10 amended.** Last write wins: when retained original bins `j1 < j2 < validCount`
collide on the same remapped index, and `j2` is the largest retained bin mapping
there, the shifted spectrum holds `spectrum[j2]` at that position — assignments are
applied in increasing original-index order and a later write overwrites an earlier
one (so the remap is deterministic but not injective at such a shift factor). -/
theorem C10_last_write_wins (s : ℚ) (v : List Cx) (j1 j2 : ℕ) (hs : 0 < s)
    (hv : v.length = fft_size) (hj12 : j1 < j2) (hj2 : j2 < validCount s fft_size)
    (hcol : newIdx s j1 = newIdx s j2)
    (hmax : ∀ j, j2 < j → j < validCount s fft_size → newIdx s j ≠ newIdx s j2) :
    (shifted_fft s v).getD (newIdx s j2).toNat zeroCx = v.getD j2 zeroCx := by
  have hs' := le_of_lt hs
  have hlt : newIdx s j2 < (fft_size : ℤ) := newIdx_lt_of_lt_validCount s hs' hj2
  have hnn : 0 ≤ newIdx s j2 := newIdx_nonneg s hs' j2
  have htN : (newIdx s j2).toNat < fft_size := by omega
  rw [shifted_fft_eq_specSide s hs' v]
  simp only [shiftedSpecSide, hv]
  have hmapfold :
      ((List.range (validCount s fft_size)).map
          (fun j => ((newIdx s j).toNat, v.getD j zeroCx))).foldl
        (fun acc p => acc.set p.1 p.2) (List.replicate fft_size zeroCx) =
      (List.range (validCount s fft_size)).foldl
        (fun acc j => acc.set (newIdx s j).toNat (v.getD j zeroCx))
        (List.replicate fft_size zeroCx) := by
    rw [List.foldl_map]
  rw [← hmapfold,
    foldl_set_getD _ _ _ (by rw [List.length_replicate]; exact htN),
    List.filter_map, List.foldl_map]
  have hrepl : ∀ j : ℕ,
      ((fun p : ℕ × Cx => p.1 == (newIdx s j2).toNat) ∘
        fun j => ((newIdx s j).toNat, v.getD j zeroCx)) j =
      ((newIdx s j).toNat == (newIdx s j2).toNat) := fun j => rfl
  rw [List.filter_congr (fun j _ => hrepl j)]
  exact foldl_replace_filter_range (fun j => v.getD j zeroCx) _
    (validCount s fft_size) j2 _ hj2 (by simp)
    (fun j hj hjm => by
      have hne := hmax j hj hjm
      have hnnj : 0 ≤ newIdx s j := newIdx_nonneg s hs' j
      simp only [beq_eq_false_iff_ne, ne_eq]
      omega)

theorem newIdx_near_one (k : ℕ) (hk : k < fft_size) :
    newIdx (4094 / 4095) k = (k : ℤ) := by
  rcases Nat.eq_zero_or_pos k with rfl | hk1
  · norm_num [newIdx, roundHalfEven]
  · have hk2 : k ≤ 2047 := by
      have : k < 2048 := by simpa [fft_size] using hk
      omega
    have hkQ1 : (1 : ℚ) ≤ (k : ℚ) := by exact_mod_cast hk1
    have hkQ2 : (k : ℚ) ≤ 2047 := by exact_mod_cast hk2
    have hfl : ⌊(k : ℚ) * (4094 / 4095)⌋ = (k : ℤ) - 1 := by
      rw [Int.floor_eq_iff]
      push_cast
      constructor <;> linarith
    rw [newIdx, roundHalfEven, hfl]
    rw [if_neg (by push_cast; linarith), if_pos (by push_cast; linarith)]
    omega

/-- **C10's parenthetical fails**: it is not true that collisions happen "whenever
shiftFactor < 1".  At `shift_factor = 4094/4095 < 1` every bin `k < FFT_SIZE` is
remapped to itself (`round(k * 4094/4095) = k`), so the retained remapped indices
are pairwise distinct — no two original bins collide. -/
theorem C10_counterexample :
    ((4094 / 4095 : ℚ) < 1) ∧
      List.Pairwise (fun a b => a ≠ b) (new_indices (4094 / 4095) fft_size) := by
  refine ⟨by norm_num, ?_⟩
  have hmap : new_indices (4094 / 4095) fft_size =
      (List.range fft_size).map Int.ofNat := by
    rw [new_indices,
      List.map_congr_left (fun k hk => newIdx_near_one k (List.mem_range.mp hk))]
    apply List.filter_eq_self.mpr
    intro z hz
    rcases List.mem_map.mp hz with ⟨k, hk, rfl⟩
    simp only [decide_eq_true_eq]
    exact_mod_cast List.mem_range.mp hk
  rw [hmap]
  exact (List.nodup_range fft_size).map fun a b h => Int.ofNat.inj h

theorem validCount_half : validCount (1 / 2) fft_size = fft_size := by
  rw [validCount]
  rw [List.filter_eq_self.mpr, List.length_range]
  intro a ha
  have hamem := List.mem_range.mp ha
  have hle : newIdx (1 / 2) a ≤ (a : ℤ) := by
    have hmono : newIdx (1 / 2) a ≤ roundHalfEven ((a : ℕ) : ℚ) := by
      rw [newIdx]
      apply roundHalfEven_mono
      have h0 : (0 : ℚ) ≤ (a : ℚ) := by positivity
      linarith
    rw [roundHalfEven_natCast] at hmono
    exact hmono
  simp only [decide_eq_true_eq]
  have : (a : ℤ) < (fft_size : ℤ) := by exact_mod_cast hamem
  omega

theorem newIdx_half_one : newIdx (1 / 2) 1 = 0 := by
  have h : ⌊(1 / 2 : ℚ)⌋ = 0 := by
    rw [Int.floor_eq_iff]
    norm_num
  rw [newIdx, roundHalfEven]
  norm_num [h]

theorem newIdx_half_zero : newIdx (1 / 2) 0 = newIdx (1 / 2) 1 := by
  rw [newIdx_half_one]
  norm_num [newIdx, roundHalfEven]

theorem newIdx_half_large : ∀ j : ℕ, 1 < j → j < validCount (1 / 2) fft_size →
    newIdx (1 / 2) j ≠ newIdx (1 / 2) 1 := by
  intro j hj _
  rw [newIdx_half_one]
  have h2 : newIdx (1 / 2) 2 ≤ newIdx (1 / 2) j := newIdx_mono _ (by norm_num) (by omega)
  have h22 : newIdx (1 / 2) 2 = 1 := by
    rw [newIdx, show ((2 : ℕ) : ℚ) * (1 / 2) = ((1 : ℕ) : ℚ) from by push_cast; ring,
      roundHalfEven_natCast]
    rfl
  omega

/-- Witness for C10's amended theorem: at `shift_factor = 1/2` the retained bins `0`
and `1` both remap to index `0`, bin `1` is the largest such bin, and the shifted
spectrum keeps the value of bin `1`. -/
theorem C10_witness :
    (0 < (1 / 2 : ℚ)) ∧
      ((List.replicate fft_size zeroCx).set 1 ⟨5, 0⟩).length = fft_size ∧
      0 < 1 ∧ 1 < validCount (1 / 2) fft_size ∧
      newIdx (1 / 2) 0 = newIdx (1 / 2) 1 ∧
      (∀ j, 1 < j → j < validCount (1 / 2) fft_size →
        newIdx (1 / 2) j ≠ newIdx (1 / 2) 1) ∧
      (shifted_fft (1 / 2) ((List.replicate fft_size zeroCx).set 1 ⟨5, 0⟩)).getD
          (newIdx (1 / 2) 1).toNat zeroCx =
        ((List.replicate fft_size zeroCx).set 1 ⟨5, 0⟩).getD 1 zeroCx :=
  ⟨by norm_num, by simp, by norm_num,
    by rw [validCount_half]; norm_num [fft_size],
    newIdx_half_zero, newIdx_half_large,
    C10_last_write_wins (1 / 2) ((List.replicate fft_size zeroCx).set 1 ⟨5, 0⟩) 0 1
      (by norm_num) (by simp) (by norm_num)
      (by rw [validCount_half]; norm_num [fft_size])
      newIdx_half_zero newIdx_half_large⟩
